import Mathlib

/-!
Shallow embedding of the lynki-backend document/quiz pipeline
(`app/services/analysis_service.py`, `question_generator.py`,
`quiz_generation_service.py`, `extraction_service.py`) and proofs of the
spec's claims about it.  Strings manipulated character-wise by the Python
code are modelled as `List Char`.
-/

namespace Lynki

/-- Characters Python treats as whitespace for `str.strip`, `\s` in regexes
and sentence splitting (ASCII subset, which is what the code paths touch). -/
def isWS (c : Char) : Bool :=
  c = ' ' || c = '\t' || c = '\n' || c = '\r' || c = '\x0b' || c = '\x0c'

/-- Python strings, modelled character-wise. -/
abbrev Str := List Char

/-- Python `str.strip()`: drop leading and trailing whitespace. -/
def trim (s : Str) : Str :=
  ((s.dropWhile isWS).reverse.dropWhile isWS).reverse

/-- Python `text.split("\n\n")` — split on every non-overlapping occurrence
of two consecutive newlines, scanning left to right
(`analysis_service._chunk_text`, line 62). -/
def splitParasAux (acc : Str) : Str → List Str
  | [] => [acc.reverse]
  | '\n' :: '\n' :: rest => acc.reverse :: splitParasAux [] rest
  | c :: rest => splitParasAux (c :: acc) rest

/-- The paragraphs of a text, as `_chunk_text` computes them. -/
def paragraphs (text : Str) : List Str := splitParasAux [] text

/-- Sentence-final punctuation of the regex `(?<=[.!?])\s+`
(`analysis_service._split_into_sentences`, line 99). -/
def isEndPunct (c : Char) : Bool := c = '.' || c = '!' || c = '?'

/-- Whether a string starts with a whitespace character. -/
def headIsWS : Str → Bool
  | [] => false
  | c :: _ => isWS c

/-- `re.split(r'(?<=[.!?])\s+', text)`: split after end punctuation followed
by a (maximal) whitespace run, the run itself being consumed.  `skipping`
records that the scan is inside the whitespace run of a just-consumed
separator. -/
def sentAux (skipping : Bool) (acc : Str) : Str → List Str
  | [] => [acc.reverse]
  | c :: rest =>
    if skipping && isWS c then
      sentAux true acc rest
    else if isEndPunct c && headIsWS rest then
      (acc.reverse ++ [c]) :: sentAux true [] rest
    else
      sentAux false (c :: acc) rest

/-- `_split_into_sentences`: regex split, then
`[s.strip() for s in sentences if s.strip()]`. -/
def splitIntoSentences (text : Str) : List Str :=
  ((sentAux false [] text).map trim).filter (fun s => !s.isEmpty)

/-- The accumulator of `_chunk_text`'s loop: the chunks flushed so far and
the chunk currently being built. -/
structure ChunkState where
  chunks : List Str
  current : Str
deriving DecidableEq, Repr

/-- `if current_chunk.strip(): chunks.append(current_chunk.strip())`. -/
def flushCurrent (st : ChunkState) : List Str :=
  if (trim st.current).isEmpty then st.chunks else st.chunks ++ [trim st.current]

/-- One iteration of the sentence loop of `_chunk_text` (lines 79–85). -/
def stepSent (chunkSize : Nat) (st : ChunkState) (s : Str) : ChunkState :=
  if st.current.length + s.length + 1 > chunkSize then
    ⟨flushCurrent st, s⟩
  else
    ⟨st.chunks, st.current ++ (if st.current.isEmpty then [] else [' ']) ++ s⟩

/-- One iteration of the paragraph loop of `_chunk_text` (lines 64–89). -/
def stepPara (chunkSize : Nat) (st : ChunkState) (para0 : Str) : ChunkState :=
  let para := trim para0
  if para.isEmpty then st
  else if st.current.length + para.length + 2 > chunkSize then
    let chunks := flushCurrent st
    if para.length > chunkSize then
      (splitIntoSentences para).foldl (stepSent chunkSize) ⟨chunks, []⟩
    else
      ⟨chunks, para⟩
  else
    ⟨st.chunks, st.current ++ (if st.current.isEmpty then [] else ['\n', '\n']) ++ para⟩

/-- `_chunk_text(text, chunk_size)` (`analysis_service.py`, lines 50–95). -/
def chunkText (text : Str) (chunkSize : Nat) : List Str :=
  if text.length ≤ chunkSize then [text]
  else
    let st := (paragraphs text).foldl (stepPara chunkSize) ⟨[], []⟩
    let chunks := flushCurrent st
    if chunks.isEmpty then [text] else chunks

/-- The non-whitespace characters of a string, in order. -/
def nw (s : Str) : Str := s.filter (fun c => !isWS c)

/-! ### JSON repair (`_extract_and_clean_json`, `_parse_question_response`)

`re.sub` with the patterns the code uses is modelled as a character scanner:
each state records how far a candidate match has progressed, mismatches emit
the provisionally consumed characters, matches emit the replacement. -/

/-- Scanner state for `re.sub(r'^```(?:json)?\s*', '', text, flags=re.MULTILINE)`
(`analysis_service.py`, line 105).  `norm` carries whether the scan is at a
line start; `tick k` has seen `k` backticks at a line start; `ticks` has seen
all three (a match is already committed); `jtag k` has seen `k` characters of
`json` after the fence; `jdone` has seen all of `json`; `wsSkip` consumes the
trailing `\s*` of a committed match, remembering whether the last consumed
character was a newline. -/
inductive FOSt
  | norm (atLS : Bool)
  | tick (k : Nat)
  | ticks
  | jtag (k : Nat)
  | jdone
  | wsSkip (lastNL : Bool)

def fenceOpenAux (st : FOSt) : Str → Str
  | [] =>
    match st with
    | .tick 1 => ['`']
    | .tick _ => ['`', '`']
    | .jtag 1 => ['j']
    | .jtag 2 => ['j', 's']
    | .jtag _ => ['j', 's', 'o']
    | _ => []
  | c :: rest =>
    match st with
    | .norm atLS =>
      if atLS && c = '`' then fenceOpenAux (.tick 1) rest
      else c :: fenceOpenAux (.norm (c = '\n')) rest
    | .tick 1 =>
      if c = '`' then fenceOpenAux (.tick 2) rest
      else '`' :: c :: fenceOpenAux (.norm (c = '\n')) rest
    | .tick _ =>
      if c = '`' then fenceOpenAux .ticks rest
      else '`' :: '`' :: c :: fenceOpenAux (.norm (c = '\n')) rest
    | .ticks =>
      if c = 'j' then fenceOpenAux (.jtag 1) rest
      else if isWS c then fenceOpenAux (.wsSkip (c = '\n')) rest
      else c :: fenceOpenAux (.norm (c = '\n')) rest
    | .jtag 1 =>
      if c = 's' then fenceOpenAux (.jtag 2) rest
      else 'j' :: c :: fenceOpenAux (.norm (c = '\n')) rest
    | .jtag 2 =>
      if c = 'o' then fenceOpenAux (.jtag 3) rest
      else 'j' :: 's' :: c :: fenceOpenAux (.norm (c = '\n')) rest
    | .jtag _ =>
      if c = 'n' then fenceOpenAux .jdone rest
      else 'j' :: 's' :: 'o' :: c :: fenceOpenAux (.norm (c = '\n')) rest
    | .jdone =>
      if isWS c then fenceOpenAux (.wsSkip (c = '\n')) rest
      else c :: fenceOpenAux (.norm (c = '\n')) rest
    | .wsSkip lastNL =>
      if isWS c then fenceOpenAux (.wsSkip (c = '\n')) rest
      else if lastNL && c = '`' then fenceOpenAux (.tick 1) rest
      else c :: fenceOpenAux (.norm (c = '\n')) rest

/-- `re.sub(r'^```(?:json)?\s*', '', text, flags=re.MULTILINE)`. -/
def fenceOpenSub (s : Str) : Str := fenceOpenAux (.norm true) s

/-- Scanner state for `re.sub(r'\s*```$', '', text, flags=re.MULTILINE)`
(`analysis_service.py`, line 106): `ws` is buffering a whitespace run
(the buffer is a separate argument), `tick k` has seen `k` backticks after
the run. -/
inductive FCSt
  | norm
  | ws
  | tick (k : Nat)

def fenceCloseAux (st : FCSt) (buf : Str) : Str → Str
  | [] =>
    match st with
    | .norm => []
    | .ws => buf
    | .tick 3 => []
    | .tick k => buf ++ List.replicate k '`'
  | c :: rest =>
    match st with
    | .norm =>
      if isWS c then fenceCloseAux .ws [c] rest
      else if c = '`' then fenceCloseAux (.tick 1) [] rest
      else c :: fenceCloseAux .norm [] rest
    | .ws =>
      if isWS c then fenceCloseAux .ws (buf ++ [c]) rest
      else if c = '`' then fenceCloseAux (.tick 1) buf rest
      else buf ++ c :: fenceCloseAux .norm [] rest
    | .tick 3 =>
      if c = '\n' then fenceCloseAux .ws ['\n'] rest
      else if c = '`' then (buf ++ ['`']) ++ fenceCloseAux (.tick 3) [] rest
      else if isWS c then (buf ++ ['`', '`', '`']) ++ fenceCloseAux .ws [c] rest
      else (buf ++ ['`', '`', '`']) ++ c :: fenceCloseAux .norm [] rest
    | .tick k =>
      if c = '`' then fenceCloseAux (.tick (k + 1)) buf rest
      else if isWS c then (buf ++ List.replicate k '`') ++ fenceCloseAux .ws [c] rest
      else (buf ++ List.replicate k '`') ++ c :: fenceCloseAux .norm [] rest

/-- `re.sub(r'\s*```$', '', text, flags=re.MULTILINE)`. -/
def fenceCloseSub (s : Str) : Str := fenceCloseAux .norm [] s

/-- `re.sub(r',\s*}', '}', s)` / `re.sub(r',\s*]', ']', s)`
(`analysis_service.py`, lines 119–120), parametrised by the closing
character.  `buf` holds the comma and whitespace of the candidate match. -/
def commaSubAux (close : Char) (inCand : Bool) (buf : Str) : Str → Str
  | [] => buf
  | c :: rest =>
    if inCand then
      if isWS c then commaSubAux close true (buf ++ [c]) rest
      else if c = close then close :: commaSubAux close false [] rest
      else if c = ',' then buf ++ commaSubAux close true [','] rest
      else buf ++ c :: commaSubAux close false [] rest
    else
      if c = ',' then commaSubAux close true [','] rest
      else c :: commaSubAux close false [] rest

def commaSub (close : Char) (s : Str) : Str := commaSubAux close false [] s

/-- `text.find('{')`, `text.rfind('}')`, then the slice
`text[start_idx:end_idx]` of `_extract_and_clean_json` (lines 108–115);
`none` models the `ValueError("No JSON object found in response")`. -/
def sliceBraces (s : Str) : Option Str :=
  match s.findIdx? (· = '{'), s.reverse.findIdx? (· = '}') with
  | some a, some br => some ((s.drop a).take (s.length - 1 - br + 1 - a))
  | _, _ => none

/-- `AnalysisService._extract_and_clean_json` (lines 102–122). -/
def extractAndCleanJson (s : Str) : Option Str :=
  (sliceBraces (fenceCloseSub (fenceOpenSub s))).map
    (fun j => commaSub ']' (commaSub '}' j))

/-! The question generator's `_parse_question_response`
(`question_generator.py`, lines 254–273) writes its patterns with doubled
backslashes inside raw strings — `r'^```(?:json)?\\s*'`, `r'\\s*```$'`,
`r',\\s*}'`, `r',\\s*]'` — so each pattern demands a literal backslash
(followed by zero or more letters `s`) where `\s*` was intended. -/

/-- Scanner state for `re.sub(r'^```(?:json)?\\s*', '', text, flags=re.MULTILINE)`:
like `FOSt` but the match additionally requires a literal `\` (state `bsRun`
then consumes the `s*`); no match is committed before the backslash. -/
inductive BFOSt
  | norm (atLS : Bool)
  | tick1
  | tick2
  | ticks
  | jtag1
  | jtag2
  | jtag3
  | jdone
  | bsRun
deriving DecidableEq

def bFenceOpenAux (st : BFOSt) : Str → Str
  | [] =>
    match st with
    | .norm _ => []
    | .tick1 => ['`']
    | .tick2 => ['`', '`']
    | .ticks => ['`', '`', '`']
    | .jtag1 => '`' :: '`' :: '`' :: ['j']
    | .jtag2 => '`' :: '`' :: '`' :: ['j', 's']
    | .jtag3 => '`' :: '`' :: '`' :: ['j', 's', 'o']
    | .jdone => '`' :: '`' :: '`' :: ['j', 's', 'o', 'n']
    | .bsRun => []
  | c :: rest =>
    match st with
    | .norm atLS =>
      if atLS && c = '`' then bFenceOpenAux .tick1 rest
      else c :: bFenceOpenAux (.norm (c = '\n')) rest
    | .tick1 =>
      if c = '`' then bFenceOpenAux .tick2 rest
      else '`' :: c :: bFenceOpenAux (.norm (c = '\n')) rest
    | .tick2 =>
      if c = '`' then bFenceOpenAux .ticks rest
      else '`' :: '`' :: c :: bFenceOpenAux (.norm (c = '\n')) rest
    | .ticks =>
      if c = 'j' then bFenceOpenAux .jtag1 rest
      else if c = '\\' then bFenceOpenAux .bsRun rest
      else '`' :: '`' :: '`' :: c :: bFenceOpenAux (.norm (c = '\n')) rest
    | .jtag1 =>
      if c = 's' then bFenceOpenAux .jtag2 rest
      else '`' :: '`' :: '`' :: 'j' :: c :: bFenceOpenAux (.norm (c = '\n')) rest
    | .jtag2 =>
      if c = 'o' then bFenceOpenAux .jtag3 rest
      else '`' :: '`' :: '`' :: 'j' :: 's' :: c :: bFenceOpenAux (.norm (c = '\n')) rest
    | .jtag3 =>
      if c = 'n' then bFenceOpenAux .jdone rest
      else '`' :: '`' :: '`' :: 'j' :: 's' :: 'o' :: c :: bFenceOpenAux (.norm (c = '\n')) rest
    | .jdone =>
      if c = '\\' then bFenceOpenAux .bsRun rest
      else '`' :: '`' :: '`' :: 'j' :: 's' :: 'o' :: 'n' :: c :: bFenceOpenAux (.norm (c = '\n')) rest
    | .bsRun =>
      if c = 's' then bFenceOpenAux .bsRun rest
      else c :: bFenceOpenAux (.norm (c = '\n')) rest

/-- The question generator's broken opening-fence substitution. -/
def bFenceOpenSub (s : Str) : Str := bFenceOpenAux (.norm true) s

/-- Scanner state for `re.sub(r'\\s*```$', '', text, flags=re.MULTILINE)`:
`bs` has seen the literal backslash and is consuming `s*` (buffer argument
holds what was consumed); `tick k` has seen `k` backticks after the run. -/
inductive BFCSt
  | norm
  | bs
  | tick (k : Nat)

def bFenceCloseAux (st : BFCSt) (buf : Str) : Str → Str
  | [] =>
    match st with
    | .norm => []
    | .bs => buf
    | .tick 3 => []
    | .tick k => buf ++ List.replicate k '`'
  | c :: rest =>
    match st with
    | .norm =>
      if c = '\\' then bFenceCloseAux .bs ['\\'] rest
      else c :: bFenceCloseAux .norm [] rest
    | .bs =>
      if c = 's' then bFenceCloseAux .bs (buf ++ ['s']) rest
      else if c = '`' then bFenceCloseAux (.tick 1) buf rest
      else if c = '\\' then buf ++ bFenceCloseAux .bs ['\\'] rest
      else buf ++ c :: bFenceCloseAux .norm [] rest
    | .tick 3 =>
      if c = '\n' then c :: bFenceCloseAux .norm [] rest
      else if c = '\\' then (buf ++ ['`', '`', '`']) ++ bFenceCloseAux .bs ['\\'] rest
      else (buf ++ ['`', '`', '`']) ++ c :: bFenceCloseAux .norm [] rest
    | .tick k =>
      if c = '`' then bFenceCloseAux (.tick (k + 1)) buf rest
      else if c = '\\' then (buf ++ List.replicate k '`') ++ bFenceCloseAux .bs ['\\'] rest
      else (buf ++ List.replicate k '`') ++ c :: bFenceCloseAux .norm [] rest

/-- The question generator's broken closing-fence substitution. -/
def bFenceCloseSub (s : Str) : Str := bFenceCloseAux .norm [] s

/-- `re.sub(r',\\s*}', '}', s)` / `re.sub(r',\\s*]', ']', s)` of
`_parse_question_response` (lines 270–271): the match is a comma, a literal
backslash, a run of `s`, then the closing character. -/
def bCommaSubAux (close : Char) (buf : Str) : Str → Str
  | [] => buf
  | c :: rest =>
    match buf with
    | [] =>
      if c = ',' then bCommaSubAux close [','] rest
      else c :: bCommaSubAux close [] rest
    | [','] =>
      if c = '\\' then bCommaSubAux close [',', '\\'] rest
      else if c = ',' then ',' :: bCommaSubAux close [','] rest
      else ',' :: c :: bCommaSubAux close [] rest
    | _ =>
      if c = 's' then bCommaSubAux close (buf ++ ['s']) rest
      else if c = close then close :: bCommaSubAux close [] rest
      else if c = ',' then buf ++ bCommaSubAux close [','] rest
      else buf ++ c :: bCommaSubAux close [] rest

def bCommaSub (close : Char) (s : Str) : Str := bCommaSubAux close [] s

/-- The cleaning part of `QuestionGenerator._parse_question_response`
(lines 254–273): the broken fence substitutions, the brace slice, then the
broken trailing-comma substitutions (the final `json.loads` is applied to
the returned string). -/
def parseQRClean (s : Str) : Option Str :=
  (sliceBraces (bFenceCloseSub (bFenceOpenSub s))).map
    (fun j => bCommaSub ']' (bCommaSub '}' j))

/-! ### Per-chunk retry loop (`AnalysisService._process_chunk`, lines 124–209) -/

/-- `MAX_API_RETRIES = 2` (`analysis_service.py`, line 16). -/
def maxApiRetries : Nat := 2

/-- How one attempt of `_process_chunk` ends: success, one of the three
retryable failures (`asyncio.TimeoutError`; `APITimeoutError`/
`APIConnectionError`; `json.JSONDecodeError`), or any other exception. -/
inductive AttemptOutcome
  | ok
  | timeout
  | connError
  | jsonError
  | other
deriving DecidableEq, Repr

/-- Observable events of the retry loop: an attempt starting, an
`asyncio.sleep` of the given seconds, the chunk's data being saved
(`_save_structure` on the parsed response), or an exception propagating. -/
inductive Ev
  | attempt (a : Nat)
  | sleep (secs : Nat)
  | save
  | raised
deriving DecidableEq, Repr

/-- The `for attempt in range(MAX_API_RETRIES + 1)` loop of `_process_chunk`,
started at attempt `a` with `fuel` iterations left. -/
def runAttempts (f : Nat → AttemptOutcome) : Nat → Nat → List Ev
  | _, 0 => []
  | a, fuel + 1 =>
    Ev.attempt a ::
      match f a with
      | .ok => [Ev.save]
      | .timeout =>
        if a < maxApiRetries then Ev.sleep (2 ^ a) :: runAttempts f (a + 1) fuel else []
      | .connError =>
        if a < maxApiRetries then Ev.sleep (2 ^ a) :: runAttempts f (a + 1) fuel else []
      | .jsonError =>
        if a < maxApiRetries then runAttempts f (a + 1) fuel else []
      | .other => [Ev.raised]

/-- The event trace of `_process_chunk` when attempt `a` ends in `f a`. -/
def processChunk (f : Nat → AttemptOutcome) : List Ev :=
  runAttempts f 0 (maxApiRetries + 1)

/-- The chunk loop of `analyze_document` (lines 42–44): chunks are processed
sequentially starting at index `i`; an exception raised out of
`_process_chunk` propagates and aborts the remaining chunks. -/
def analyzeFrom (F : Nat → Nat → AttemptOutcome) (i : Nat) : Nat → List Ev
  | 0 => []
  | remaining + 1 =>
    let t := processChunk (F i)
    if Ev.raised ∈ t then t else t ++ analyzeFrom F (i + 1) remaining

/-- The traces of processing `n` chunks whose attempt outcomes are
`F chunkIndex attempt`. -/
def analyzeChunks (F : Nat → Nat → AttemptOutcome) (n : Nat) : List Ev :=
  analyzeFrom F 0 n

/-! ### Saving extracted structure (`AnalysisService._save_structure`,
lines 211–282) -/

/-- One concept of a parsed chunk response (`concept.get("name")` may be
absent; `explanation` and `source_text` default to `""`). -/
structure ConceptData where
  name : Option String
  explanation : String
  sourceText : String
deriving DecidableEq, Repr

/-- One topic of a parsed chunk response. -/
structure TopicData where
  name : Option String
  concepts : List ConceptData
deriving DecidableEq, Repr

/-- A row handed to `supabase.table("concepts").insert(...)`. -/
structure ConceptRow where
  topicId : Nat
  name : String
  explanation : String
  sourceText : String
  complexityLevel : String
deriving DecidableEq, Repr

/-- The storage operations `_save_structure` performs, as oracles: each call
either raises (`.error`) or returns.  `selectTopic` returns the id of an
existing topic row, `insertTopic` the id of the inserted row (`none` when
the insert response carries no row). -/
structure Db where
  selectTopic : String → Except String (Option Nat)
  insertTopic : String → Except String (Option Nat)
  insertConcepts : List ConceptRow → Except String Unit

/-- The rows built for one topic (lines 259–274): concepts without a name
are skipped, every row gets `complexity_level = "intermediate"`. -/
def conceptRowsFor (topicId : Nat) (concepts : List ConceptData) : List ConceptRow :=
  concepts.filterMap fun c =>
    c.name.map fun n => ⟨topicId, n, c.explanation, c.sourceText, "intermediate"⟩

/-- `_save_structure`: returns the concept-row batches handed to the store
(in order) and how the call ends.  The `try/except` of lines 276–282 catches
a failing concepts insert and only logs it; a failing topic select or topic
insert is not caught and propagates. -/
def saveStructure (db : Db) : List TopicData → List ConceptRow × Except String Unit
  | [] => ([], .ok ())
  | t :: rest =>
    match t.name with
    | none => saveStructure db rest
    | some name =>
      match db.selectTopic name with
      | .error e => ([], .error e)
      | .ok existing =>
        match (match existing with
               | some tid => Except.ok (some tid)
               | none => db.insertTopic name : Except String (Option Nat)) with
        | .error e => ([], .error e)
        | .ok none => saveStructure db rest
        | .ok (some tid) =>
          let rows := conceptRowsFor tid t.concepts
          if rows.isEmpty then saveStructure db rest
          else
            let _ := db.insertConcepts rows
            let (more, res) := saveStructure db rest
            (rows ++ more, res)

/-! ### Question persistence (`QuizGenerationService._save_questions`,
lines 250–318, and its caller, lines 130–141) -/

/-- How persisting one question ends: both inserts succeed; the question
insert fails (exception or empty response, the question row is not
persisted); or the options insert fails after the question row was
persisted (`saved_count` is not incremented). -/
inductive SaveOutcome
  | ok
  | questionFailed
  | optionsFailed
deriving DecidableEq, Repr

/-- `_save_questions(quiz_id, questions, start_order_index)` restricted to
what it persists: the `order_index` values of the Question rows that reach
the store (`start_order_index + idx` for the enumeration index `idx`), and
the returned `saved_count`. -/
def saveQuestions (out : Nat → SaveOutcome) (numQuestions start : Nat) : List Nat × Nat :=
  (List.range numQuestions).foldl
    (fun acc i =>
      match out i with
      | .ok => (acc.1 ++ [start + i], acc.2 + 1)
      | .questionFailed => acc
      | .optionsFailed => (acc.1 ++ [start + i], acc.2))
    ([], 0)

/-- The persistence loop of `generate_quiz_for_document` (lines 130–141):
concept results are saved in listing order, each concept's batch starting at
`current_order_index`, which advances by the returned `saved_count`.
`out k i` is how persisting question `i` of concept `k` ends; `qss` lists
how many questions each concept generated. -/
def persistAll (out : Nat → Nat → SaveOutcome) : List Nat → Nat → Nat → List Nat
  | [], _, _ => []
  | q :: rest, k, start =>
    let (idxs, cnt) := saveQuestions (out k) q start
    idxs ++ persistAll out rest (k + 1) (start + cnt)

/-- All persisted `order_index` values of one quiz-generation run. -/
def persistedIndices (out : Nat → Nat → SaveOutcome) (qss : List Nat) : List Nat :=
  persistAll out qss 0 0

/-! ### Option shuffling (`_save_questions`, lines 263–312) -/

/-- A generated answer option (`app/schemas/quiz.py`, `QuestionOption`). -/
structure QOption where
  optionText : String
  isCorrect : Bool
  explanation : String
deriving DecidableEq, Repr

/-- `next(new_idx for new_idx, opt in enumerate(options_list) if opt.is_correct)`:
the index of the first correct option of the shuffled list, stored as the
question's `correct_answer`. -/
def correctAnswerIndex (shuffled : List QOption) : Nat :=
  shuffled.findIdx (·.isCorrect)

/-- The `question_options` rows built from the shuffled list (lines 298–307):
`option_index` is the position after shuffling, the other fields are taken
from the option unchanged. -/
def persistedOptions (shuffled : List QOption) : List (Nat × QOption) :=
  shuffled.enum

/-! ### Question quality gate (`QuestionGenerator._create_question_object`
and `_validate_question_quality`, lines 275–339) -/

/-- One entry of the parsed `options` array: `opt["text"]` must be present,
`opt.get("is_correct", False)` and `opt.get("explanation", "")` default. -/
structure RawOption where
  text : String
  isCorrect : Option Bool
  explanation : Option String
deriving DecidableEq, Repr

/-- The parsed question payload handed to `_create_question_object`. -/
structure RawQuestion where
  question : String
  options : List RawOption
  hint : Option String
deriving DecidableEq, Repr

/-- An option of a built `GeneratedQuestion` (option_index is its position). -/
structure BuiltOption where
  optionText : String
  isCorrect : Bool
  explanation : String
deriving DecidableEq, Repr

/-- A built `GeneratedQuestion` (difficulty and concept id omitted: the
quality gate does not read them). -/
structure BuiltQuestion where
  question : String
  options : List BuiltOption
  hint : Option String
deriving DecidableEq, Repr

/-- `_create_question_object` (lines 275–307): `none` models the
`ValueError`s for an option count ≠ 4 and a correct-option count ≠ 1. -/
def createQuestionObject (qd : RawQuestion) : Option BuiltQuestion :=
  if qd.options.length ≠ 4 then none
  else
    let opts := qd.options.map fun o =>
      BuiltOption.mk o.text (o.isCorrect.getD false) (o.explanation.getD "")
    if opts.countP (·.isCorrect) ≠ 1 then none
    else some ⟨qd.question, opts, qd.hint⟩

/-- Python `str.lower()` on the texts the code compares (character-wise;
`String.toLower` itself is not kernel-reducible, so the map is spelled out
over the character list). -/
def strToLower (s : String) : String := ⟨s.data.map Char.toLower⟩

/-- `_validate_question_quality` (lines 309–339).  Note the hint check
`if question.hint and len(question.hint) < 10`: an empty hint string is
falsy in Python, so it is not length-checked. -/
def validateQuestionQuality (q : BuiltQuestion) : Bool :=
  if q.question.length < 20 || q.question.length > 500 then false
  else if q.options.any (fun o => o.optionText.length < 3 || o.explanation.length < 10) then
    false
  else if !(decide (q.options.map (fun o => strToLower o.optionText)).Nodup) then false
  else
    match q.hint with
    | some h => if h ≠ "" && h.length < 10 then false else true
    | none => true

/-- A parsed question is accepted when `_create_question_object` does not
raise and `_validate_question_quality` returns `True`
(`_generate_single_question`, lines 136–141). -/
def acceptQuestion (qd : RawQuestion) : Bool :=
  match createQuestionObject qd with
  | none => false
  | some q => validateQuestionQuality q

/-! ### Document pipeline tail (`ExtractionService._process_document_internal`,
lines 58–166, and `QuizGenerationService.generate_quiz_for_document`,
lines 46–163) -/

/-- An `update` on the `documents` row: the written status, and the written
`error_message` when that field is part of the payload (`some none` writes
SQL NULL). -/
structure DocUpdate where
  status : String
  errorMessage : Option (Option String)
deriving DecidableEq, Repr

/-- `generate_quiz_for_document`: its body either returns (`.ok`, possibly
`none` for the `return None` paths) or raises, and the `try/except` of
lines 156–163 turns every raise into `return None`.  It never updates the
`documents` table. -/
def generateQuizForDocument (body : Except String (Option String)) : Option String :=
  match body with
  | .ok r => r
  | .error _ => none

/-- The environment one `_process_document_internal` run observes. -/
structure PipelineEnv where
  docFound : Bool
  filePath : Option String
  download : Except String Unit
  fileType : Option String
  extraction : Except String String
  analysis : Except String Unit
  conceptsCount : Nat
  userId : Option String
  quizBody : Except String (Option String)

/-- The `documents` status updates `_process_document_internal` performs, in
order.  Every `ValueError` is caught at the bottom (lines 162–166) and
written as a failed status; step 6 (lines 138–144) writes `completed` with
`error_message = None`; step 7 calls the quiz service, whose result is only
logged. -/
def processInternal (env : PipelineEnv) : List DocUpdate :=
  if !env.docFound then [⟨"failed", some (some "Document not found in database")⟩]
  else
    ⟨"processing", none⟩ ::
      (match env.filePath with
       | none => [⟨"failed", some (some "Document is missing file path")⟩]
       | some _ =>
         match env.download with
         | .error e =>
           [⟨"failed", some (some ("Failed to download file from storage: " ++ e))⟩]
         | .ok _ =>
           match env.fileType with
           | none => [⟨"failed", some (some "Document is missing file type")⟩]
           | some _ =>
             match env.extraction with
             | .error e => [⟨"failed", some (some ("Text extraction failed: " ++ e))⟩]
             | .ok text =>
               if text.trim.length < 50 then
                 [⟨"failed", some (some "Extracted text is too short or empty. Please upload a document with more content.")⟩]
               else
                 match env.analysis with
                 | .error e => [⟨"failed", some (some ("AI analysis failed: " ++ e))⟩]
                 | .ok _ =>
                   if env.conceptsCount = 0 then
                     [⟨"failed", some (some "No concepts could be extracted from the document. The content may not be suitable for quiz generation.")⟩]
                   else
                     ⟨"completed", some none⟩ ::
                       (match env.userId with
                        | some _ =>
                          let _ := generateQuizForDocument env.quizBody
                          []
                        | none => []))

/-- The document's status after a run: the last written status. -/
def finalStatus (updates : List DocUpdate) : Option String :=
  (updates.map DocUpdate.status).getLast?

/-- The document's `error_message` after a run, starting from `init`. -/
def finalErrorMessage (init : Option String) (updates : List DocUpdate) : Option String :=
  updates.foldl (fun cur u => u.errorMessage.getD cur) init

/-! ### Statement-level helpers -/

/-- `c` is one sentence of the text as `_chunk_text` computes sentences:
an element of the sentence split of one of the (stripped) paragraphs. -/
def isSentenceOf (text c : Str) : Prop :=
  ∃ p ∈ paragraphs text, c ∈ splitIntoSentences (trim p)

instance (text c : Str) : Decidable (isSentenceOf text c) :=
  inferInstanceAs (Decidable (∃ p ∈ paragraphs text, c ∈ splitIntoSentences (trim p)))

/-- Whether a trace event is the start of an attempt. -/
def isAttemptEv : Ev → Bool
  | .attempt _ => true
  | _ => false

/-- Whether a trace event is a backoff sleep. -/
def isSleepEv : Ev → Bool
  | .sleep _ => true
  | _ => false

/-- The trace of `_process_chunk` from its third (last) attempt on. -/
def chunkTrace2 (o2 : AttemptOutcome) : List Ev :=
  Ev.attempt 2 ::
    match o2 with
    | .ok => [Ev.save]
    | .other => [Ev.raised]
    | _ => []

/-- The trace of `_process_chunk` from its second attempt on. -/
def chunkTrace1 (o1 o2 : AttemptOutcome) : List Ev :=
  Ev.attempt 1 ::
    match o1 with
    | .ok => [Ev.save]
    | .other => [Ev.raised]
    | .jsonError => chunkTrace2 o2
    | .timeout => Ev.sleep 2 :: chunkTrace2 o2
    | .connError => Ev.sleep 2 :: chunkTrace2 o2

/-- The trace of `_process_chunk` as a function of the outcomes of its three
possible attempts (used to reason about `processChunk` by finite cases). -/
def chunkTrace (o0 o1 o2 : AttemptOutcome) : List Ev :=
  Ev.attempt 0 ::
    match o0 with
    | .ok => [Ev.save]
    | .other => [Ev.raised]
    | .jsonError => chunkTrace1 o1 o2
    | .timeout => Ev.sleep 1 :: chunkTrace1 o1 o2
    | .connError => Ev.sleep 1 :: chunkTrace1 o1 o2

/-- Four well-formed options, exactly one correct, pairwise distinct texts,
every text ≥ 3 characters, every explanation ≥ 10 characters. -/
def exGoodOptions : List RawOption :=
  [⟨"Paris", some true, some "It is correct per the source."⟩,
   ⟨"London", some false, some "Wrong capital for France."⟩,
   ⟨"Berlin", some false, some "Wrong capital for France, too."⟩,
   ⟨"Madrid", some false, some "Also a wrong capital here."⟩]

/-- A well-formed question: text of length 21, four good options, no hint. -/
def exGoodQuestion : RawQuestion :=
  ⟨"What is the capital?x", exGoodOptions, none⟩

/-- The same question with only 3 options. -/
def exThreeOptions : RawQuestion :=
  ⟨"What is the capital?x", exGoodOptions.take 3, none⟩

/-- The same question with two options marked correct. -/
def exTwoCorrect : RawQuestion :=
  ⟨"What is the capital?x",
   [⟨"Paris", some true, some "It is correct per the source."⟩,
    ⟨"London", some true, some "Wrong capital for France."⟩,
    ⟨"Berlin", some false, some "Wrong capital for France, too."⟩,
    ⟨"Madrid", some false, some "Also a wrong capital here."⟩],
   none⟩

/-- A question whose text has length 10, with well-formed options. -/
def exShortText : RawQuestion := ⟨"Question?x", exGoodOptions, none⟩

/-- A well-formed question carrying a present, empty hint. -/
def exEmptyHint : RawQuestion :=
  ⟨"What is the capital?x", exGoodOptions, some ""⟩

/-- The three failure kinds `_process_chunk` retries on. -/
def isRetryable : AttemptOutcome → Bool
  | .timeout => true
  | .connError => true
  | .jsonError => true
  | _ => false

/-- The failure kinds whose retry is preceded by a backoff sleep
(the `json.JSONDecodeError` branch of lines 200–205 has no sleep). -/
def isBackoffRetryable : AttemptOutcome → Bool
  | .timeout => true
  | .connError => true
  | _ => false

/-- A store whose topic lookups and inserts succeed but whose concept-row
insert always raises. -/
def exDbConceptFail : Db :=
  ⟨fun _ => Except.ok none, fun _ => Except.ok (some 1),
    fun _ => Except.error "db down"⟩

/-- One parsed topic holding one concept. -/
def exTopicsC4 : List TopicData := [⟨some "T", [⟨some "C", "expl", "src"⟩]⟩]

/-- Four concrete generated options, the second one correct. -/
def exOptsC5 : List QOption :=
  [⟨"A1", false, "e1"⟩, ⟨"B2", true, "e2"⟩, ⟨"C3", false, "e3"⟩, ⟨"D4", false, "e4"⟩]

/-- One concrete shuffle of `exOptsC5`. -/
def exShuffledC5 : List QOption :=
  [⟨"C3", false, "e3"⟩, ⟨"B2", true, "e2"⟩, ⟨"A1", false, "e1"⟩, ⟨"D4", false, "e4"⟩]

end Lynki

namespace Lynki

/-! ## Helper lemmas -/

theorem mem_conceptRowsFor {tid : Nat} {cs : List ConceptData} {r : ConceptRow}
    (h : r ∈ conceptRowsFor tid cs) : r.complexityLevel = "intermediate" := by
  simp only [conceptRowsFor, List.mem_filterMap] at h
  obtain ⟨c, -, hc⟩ := h
  cases hn : c.name with
  | none => rw [hn] at hc; simp [Option.map] at hc
  | some n => rw [hn] at hc; simp only [Option.map_some'] at hc; cases hc; rfl

theorem findIdx_eq_iff_of_countP_one {α} (p : α → Bool) :
    ∀ (l : List α), l.countP p = 1 → ∀ i (h : i < l.length),
      (p l[i] = true ↔ i = l.findIdx p) := by
  intro l
  induction l with
  | nil => intro h i hi; simp at hi
  | cons x xs ih =>
    intro h i hi
    by_cases hx : p x = true
    · have hzero : xs.countP p = 0 := by
        rw [List.countP_cons_of_pos _ _ hx] at h; omega
      have hfind : (x :: xs).findIdx p = 0 := by
        simp [List.findIdx_cons, hx]
      cases i with
      | zero => simpa [hfind] using hx
      | succ j =>
        have hj : j < xs.length := by simpa using hi
        have hnp : ¬ p xs[j] = true :=
          List.countP_eq_zero.mp hzero _ (List.getElem_mem hj)
        simp [hfind, List.getElem_cons_succ, hnp]
    · have hone : xs.countP p = 1 := by
        rw [List.countP_cons_of_neg _ _ hx] at h; exact h
      have hfind : (x :: xs).findIdx p = xs.findIdx p + 1 := by
        simp [List.findIdx_cons, hx]
      cases i with
      | zero => simp [hfind, hx]
      | succ j =>
        have hj : j < xs.length := by simpa using hi
        have hrec := ih hone j hj
        simp only [List.getElem_cons_succ, hfind]
        rw [hrec]
        omega

theorem saveQuestions_allOk (out : Nat → SaveOutcome) (h : ∀ i, out i = SaveOutcome.ok)
    (start : Nat) : ∀ n, saveQuestions out n start = (List.range' start n, n) := by
  intro n
  induction n with
  | zero => rfl
  | succ n ih =>
    unfold saveQuestions at ih ⊢
    rw [List.range_succ, List.foldl_append, ih]
    simp [h n, List.range'_concat]

theorem persistAll_allOk (out : Nat → Nat → SaveOutcome)
    (h : ∀ k i, out k i = SaveOutcome.ok) :
    ∀ (qss : List Nat) (k start : Nat),
      persistAll out qss k start = List.range' start qss.sum := by
  intro qss
  induction qss with
  | nil => intro k start; rfl
  | cons q rest ih =>
    intro k start
    simp only [persistAll, saveQuestions_allOk (out k) (h k) start q]
    rw [ih, List.sum_cons, Nat.add_comm q rest.sum]
    exact List.range'_append_1 start q rest.sum

end Lynki


namespace Lynki

/-! ## Claim theorems -/

/-- C10: every Concept row the Structure Extraction Stage hands to the store
has `complexity_level = "intermediate"`, whatever the model response contained
and however the store behaves — the attribute is never derived from the
extracted material. -/
theorem c10_complexity_always_intermediate (db : Db) (topics : List TopicData) :
    ∀ r ∈ (saveStructure db topics).1, r.complexityLevel = "intermediate" := by
  induction topics with
  | nil => intro r hr; simp [saveStructure] at hr
  | cons t rest ih =>
    intro r hr
    simp only [saveStructure] at hr
    split at hr
    · exact ih r hr
    · split at hr
      · simp at hr
      · split at hr
        · simp at hr
        · exact ih r hr
        · split at hr
          · exact ih r hr
          · simp only [List.mem_append] at hr
            rcases hr with hr | hr
            · exact mem_conceptRowsFor hr
            · exact ih r hr

/-- C10 witness: a concrete run inserting one concept row. -/
theorem c10_witness :
    (⟨1, "C", "e", "s", "intermediate"⟩ : ConceptRow).complexityLevel = "intermediate" :=
  c10_complexity_always_intermediate
    ⟨fun _ => .ok none, fun _ => .ok (some 1), fun _ => .ok ()⟩
    [⟨some "T", [⟨some "C", "e", "s"⟩]⟩]
    ⟨1, "C", "e", "s", "intermediate"⟩ (by decide)

end Lynki


namespace Lynki

/-- C1 counterexample: with two concepts of 2 and 1 questions, the failure of
the first concept's first question persistence leaves the persisted
order_index sequence `[1, 1]` — neither contiguous from 0 nor unique — because
`_save_questions` numbers by enumeration index while its caller advances only
by `saved_count`. -/
theorem c1_counterexample :
    persistedIndices
        (fun k i => if k = 0 ∧ i = 0 then SaveOutcome.questionFailed else SaveOutcome.ok)
        [2, 1] = [1, 1] ∧
    ([1, 1] : List Nat) ≠ List.range 2 := by
  constructor
  · rfl
  · decide

/-- C1 (amended): in a run where every question persistence succeeds, the
persisted order_index values across all concepts form exactly
`0, 1, …, N - 1` in concept-listing order. -/
theorem c1_order_index_contiguous (out : Nat → Nat → SaveOutcome) (qss : List Nat)
    (h : ∀ k i, out k i = SaveOutcome.ok) :
    persistedIndices out qss = List.range qss.sum := by
  unfold persistedIndices
  rw [persistAll_allOk out h qss 0 0, List.range_eq_range']

/-- C1 witness: a failure-free run with concepts of 2 and 3 questions. -/
theorem c1_witness :
    persistedIndices (fun _ _ => SaveOutcome.ok) [2, 3] = List.range 5 :=
  c1_order_index_contiguous (fun _ _ => SaveOutcome.ok) [2, 3] (fun _ _ => rfl)

/-- C5: for a question whose options contain exactly one correct option, and
any shuffled arrangement (any permutation) of them, the persisted option rows
are exactly the shuffled options with `option_index` 0, 1, …, (and 0–3 for
4 options), each field unchanged, and an option row is the correct one
exactly when its `option_index` equals the `correct_answer` recomputed after
the shuffle. -/
theorem c5_shuffle_correct_answer (opts shuffled : List QOption)
    (hperm : shuffled.Perm opts) (hone : opts.countP (·.isCorrect) = 1) :
    (persistedOptions shuffled).map Prod.snd = shuffled ∧
    shuffled.Perm opts ∧
    (persistedOptions shuffled).map Prod.fst = List.range shuffled.length ∧
    (opts.length = 4 → (persistedOptions shuffled).map Prod.fst = [0, 1, 2, 3]) ∧
    (∀ q ∈ persistedOptions shuffled,
      q.2.isCorrect = true ↔ q.1 = correctAnswerIndex shuffled) := by
  have hcount : shuffled.countP (·.isCorrect) = 1 := by
    rw [hperm.countP_eq]; exact hone
  have hsnd : (persistedOptions shuffled).map Prod.snd = shuffled :=
    List.enumFrom_map_snd 0 shuffled
  have hfst : (persistedOptions shuffled).map Prod.fst = List.range shuffled.length := by
    rw [List.range_eq_range']
    exact List.enumFrom_map_fst 0 shuffled
  refine ⟨hsnd, hperm, hfst, ?_, ?_⟩
  · intro h4
    have hlen : shuffled.length = 4 := by rw [hperm.length_eq, h4]
    rw [hfst, hlen]
    rfl
  · simp only [persistedOptions]
    rw [List.forall_mem_enum]
    intro i hi
    simpa [correctAnswerIndex] using
      findIdx_eq_iff_of_countP_one (fun o => o.isCorrect) shuffled hcount i hi

end Lynki


namespace Lynki

/-- C5 witness: a concrete 4-option question and shuffle. -/
theorem c5_witness :
    (persistedOptions exShuffledC5).map Prod.snd = exShuffledC5 ∧
    exShuffledC5.Perm exOptsC5 ∧
    (persistedOptions exShuffledC5).map Prod.fst = List.range exShuffledC5.length ∧
    (exOptsC5.length = 4 → (persistedOptions exShuffledC5).map Prod.fst = [0, 1, 2, 3]) ∧
    (∀ q ∈ persistedOptions exShuffledC5,
      q.2.isCorrect = true ↔ q.1 = correctAnswerIndex exShuffledC5) :=
  c5_shuffle_correct_answer exOptsC5 exShuffledC5 (by decide) (by decide)

/-- C9: once `_process_document_internal` has set the document to
`completed` (with `error_message` NULL), the run performs no further
document update: the status writes of a successful run are exactly
`processing` then `completed`, they do not depend on how quiz generation
ends, and `generate_quiz_for_document` turns every internal exception into a
`None` return. -/
theorem c9_quiz_failure_keeps_completed :
    (∀ (env : PipelineEnv) (text fp ft : String),
        env.docFound = true → env.filePath = some fp → env.download = Except.ok () →
        env.fileType = some ft → env.extraction = Except.ok text →
        50 ≤ text.trim.length → env.analysis = Except.ok () → env.conceptsCount ≠ 0 →
        processInternal env = [⟨"processing", none⟩, ⟨"completed", some none⟩] ∧
        finalStatus (processInternal env) = some "completed" ∧
        (∀ init, finalErrorMessage init (processInternal env) = none)) ∧
    (∀ (env : PipelineEnv) (b : Except String (Option String)),
        processInternal { env with quizBody := b } = processInternal env) ∧
    (∀ e : String, generateQuizForDocument (Except.error e) = none) := by
  refine ⟨?_, ?_, ?_⟩
  · intro env text fp ft hfound hfp hdl hft hex hlen han hcc
    have heq : processInternal env = [⟨"processing", none⟩, ⟨"completed", some none⟩] := by
      unfold processInternal
      rw [hfound, hfp, hdl, hft, hex, han]
      simp only [Bool.not_true, Bool.false_eq_true, if_false]
      rw [if_neg (by omega), if_neg hcc]
      cases env.userId <;> rfl
    refine ⟨heq, ?_, ?_⟩
    · rw [heq]; rfl
    · intro init; rw [heq]; rfl
  · intro env b
    rfl
  · intro e
    rfl

end Lynki


namespace Lynki

/-! ### Trace lemmas for `_process_chunk` -/

theorem processChunk_eq_chunkTrace (f : Nat → AttemptOutcome) :
    processChunk f = chunkTrace (f 0) (f 1) (f 2) := by
  cases h0 : f 0 <;> cases h1 : f 1 <;> cases h2 : f 2 <;>
    simp [processChunk, runAttempts, chunkTrace, chunkTrace1, chunkTrace2,
      h0, h1, h2, maxApiRetries]

theorem sleep_not_mem_chunkTrace2 (n : Nat) (o2 : AttemptOutcome) :
    Ev.sleep n ∉ chunkTrace2 o2 := by
  cases o2 <;> simp [chunkTrace2]

theorem sleep_mem_chunkTrace1 (n : Nat) (o1 o2 : AttemptOutcome) :
    Ev.sleep n ∈ chunkTrace1 o1 o2 ↔ n = 2 ∧ isBackoffRetryable o1 = true := by
  cases o1 <;> simp [chunkTrace1, isBackoffRetryable, sleep_not_mem_chunkTrace2]

theorem sleep_mem_chunkTrace (n : Nat) (o0 o1 o2 : AttemptOutcome) :
    Ev.sleep n ∈ chunkTrace o0 o1 o2 ↔
      isRetryable o0 = true ∧
        ((n = 1 ∧ isBackoffRetryable o0 = true) ∨
          (n = 2 ∧ isBackoffRetryable o1 = true)) := by
  cases o0 <;>
    simp [chunkTrace, isRetryable, isBackoffRetryable, sleep_mem_chunkTrace1,
      sleep_not_mem_chunkTrace2]

theorem attempt1_mem_chunkTrace (o0 o1 o2 : AttemptOutcome) :
    Ev.attempt 1 ∈ chunkTrace o0 o1 o2 ↔ isRetryable o0 = true := by
  cases o0 <;> cases o1 <;> cases o2 <;>
    simp [chunkTrace, chunkTrace1, chunkTrace2, isRetryable]

theorem attempt2_mem_chunkTrace (o0 o1 o2 : AttemptOutcome) :
    Ev.attempt 2 ∈ chunkTrace o0 o1 o2 ↔
      isRetryable o0 = true ∧ isRetryable o1 = true := by
  cases o0 <;> cases o1 <;> cases o2 <;>
    simp [chunkTrace, chunkTrace1, chunkTrace2, isRetryable]

end Lynki


namespace Lynki

/-- C3 counterexample: a chunk whose first attempt fails with a JSON decode
error is retried (attempt 1 happens) with no sleep at all, although the
claim requires a `2^attempt`-second sleep before every retry regardless of
failure kind. -/
theorem c3_counterexample :
    processChunk (fun a => if a = 0 then AttemptOutcome.jsonError else .ok) =
      [Ev.attempt 0, Ev.attempt 1, Ev.save] ∧
    Ev.attempt 1 ∈
      processChunk (fun a => if a = 0 then AttemptOutcome.jsonError else .ok) ∧
    (processChunk (fun a => if a = 0 then AttemptOutcome.jsonError else .ok)).countP
      isSleepEv = 0 := by
  refine ⟨rfl, ?_, rfl⟩
  decide

/-- C3 (amended): every chunk makes at most 3 attempts (2 retries); every
sleep in a run is a `2^a`-second sleep caused by attempt `a` failing with a
timeout or connection error and being retried; a timeout or connection
failure that is retried is always preceded by its `2^a`-second sleep; a JSON
decode failure is retried with no sleep; and two timeouts followed by a
success give exactly the sleeps 1s and 2s and then save the chunk's data. -/
theorem c3_retry_backoff :
    (∀ f : Nat → AttemptOutcome, (processChunk f).countP isAttemptEv ≤ 3) ∧
    (∀ (f : Nat → AttemptOutcome) (n : Nat), Ev.sleep n ∈ processChunk f →
        ∃ a, a < maxApiRetries ∧ n = 2 ^ a ∧ isBackoffRetryable (f a) = true ∧
          Ev.attempt (a + 1) ∈ processChunk f) ∧
    (∀ (f : Nat → AttemptOutcome) (a : Nat), a < maxApiRetries →
        isBackoffRetryable (f a) = true → Ev.attempt a ∈ processChunk f →
        Ev.sleep (2 ^ a) ∈ processChunk f) ∧
    (∀ (f : Nat → AttemptOutcome) (a : Nat), a < maxApiRetries →
        f a = AttemptOutcome.jsonError → Ev.sleep (2 ^ a) ∉ processChunk f) ∧
    (∀ f : Nat → AttemptOutcome, isRetryable (f 0) = true →
        Ev.attempt 1 ∈ processChunk f) ∧
    processChunk (fun a => if a < 2 then AttemptOutcome.timeout else .ok) =
      [Ev.attempt 0, Ev.sleep 1, Ev.attempt 1, Ev.sleep 2, Ev.attempt 2, Ev.save] := by
  refine ⟨?_, ?_, ?_, ?_, ?_, rfl⟩
  · intro f
    rw [processChunk_eq_chunkTrace]
    cases f 0 <;> cases f 1 <;> cases f 2 <;> decide
  · intro f n hmem
    rw [processChunk_eq_chunkTrace] at hmem
    rw [sleep_mem_chunkTrace] at hmem
    obtain ⟨hret, h1 | h2⟩ := hmem
    · refine ⟨0, by decide, by simpa using h1.1, h1.2, ?_⟩
      rw [processChunk_eq_chunkTrace, attempt1_mem_chunkTrace]
      exact hret
    · have hret1 : isRetryable (f 1) = true := by
        cases h : f 1 <;> rw [h] at h2 <;> simp_all [isBackoffRetryable, isRetryable]
      refine ⟨1, by decide, by simpa using h2.1, h2.2, ?_⟩
      rw [processChunk_eq_chunkTrace, attempt2_mem_chunkTrace]
      exact ⟨hret, hret1⟩
  · intro f a ha hbo hmem
    rw [processChunk_eq_chunkTrace, sleep_mem_chunkTrace]
    have hret : isRetryable (f a) = true := by
      cases h : f a <;> rw [h] at hbo <;> simp_all [isBackoffRetryable, isRetryable]
    have ha2 : a < 2 := ha
    interval_cases a
    · exact ⟨hret, Or.inl ⟨by norm_num, hbo⟩⟩
    · rw [processChunk_eq_chunkTrace, attempt1_mem_chunkTrace] at hmem
      exact ⟨hmem, Or.inr ⟨by norm_num, hbo⟩⟩
  · intro f a ha hjson hmem
    rw [processChunk_eq_chunkTrace, sleep_mem_chunkTrace] at hmem
    obtain ⟨-, h1 | h2⟩ := hmem
    · have : a = 0 := by
        have ha2 : a < 2 := ha
        interval_cases a
        · rfl
        · exfalso; revert h1; norm_num
      rw [this] at hjson
      rw [hjson] at h1
      simp [isBackoffRetryable] at h1
    · have : a = 1 := by
        have ha2 : a < 2 := ha
        interval_cases a
        · exfalso; revert h2; norm_num
        · rfl
      rw [this] at hjson
      rw [hjson] at h2
      simp [isBackoffRetryable] at h2
  · intro f hret
    rw [processChunk_eq_chunkTrace, attempt1_mem_chunkTrace]
    exact hret

end Lynki


namespace Lynki

/-- C4 counterexample: a storage failure while inserting Concept rows does
not abort the analysis and does not propagate — `_save_structure` returns
normally although its concepts insert raised. -/
theorem c4_counterexample :
    (saveStructure exDbConceptFail exTopicsC4).2 = Except.ok () ∧
    (saveStructure exDbConceptFail exTopicsC4).1 =
      [⟨1, "C", "expl", "src", "intermediate"⟩] ∧
    exDbConceptFail.insertConcepts [⟨1, "C", "expl", "src", "intermediate"⟩] =
      Except.error "db down" :=
  ⟨rfl, rfl, rfl⟩

/-- C4 (amended): a chunk whose retries are exhausted is skipped and
processing continues with the next chunk, and an exception that is not a
timeout, connection error or JSON decode failure aborts the attempt loop
and the chunk loop; a storage failure while selecting or inserting Topic
rows propagates out of `_save_structure`, but a storage failure while
inserting Concept rows is caught and logged there — the outcome of
`_save_structure` never depends on how the concept inserts behave. -/
theorem c4_unexpected_exception_propagation :
    (∀ (db db' : Db), db.selectTopic = db'.selectTopic →
        db.insertTopic = db'.insertTopic →
        ∀ topics, saveStructure db topics = saveStructure db' topics) ∧
    (∀ (db : Db) (name : String) (concepts : List ConceptData)
        (rest : List TopicData) (e : String),
        db.selectTopic name = Except.error e →
        saveStructure db (⟨some name, concepts⟩ :: rest) = ([], Except.error e)) ∧
    (∀ (db : Db) (name : String) (concepts : List ConceptData)
        (rest : List TopicData) (e : String),
        db.selectTopic name = Except.ok none → db.insertTopic name = Except.error e →
        saveStructure db (⟨some name, concepts⟩ :: rest) = ([], Except.error e)) ∧
    (∀ f : Nat → AttemptOutcome, f 0 = AttemptOutcome.other →
        processChunk f = [Ev.attempt 0, Ev.raised]) ∧
    (∀ (F : Nat → Nat → AttemptOutcome) (n : Nat),
        (Ev.raised ∈ processChunk (F 0) →
          analyzeChunks F (n + 1) = processChunk (F 0)) ∧
        (Ev.raised ∉ processChunk (F 0) →
          analyzeChunks F (n + 1) = processChunk (F 0) ++ analyzeFrom F 1 n)) := by
  refine ⟨?_, ?_, ?_, ?_, ?_⟩
  · intro db db' hsel hins topics
    induction topics with
    | nil => rfl
    | cons t rest ih =>
      simp only [saveStructure]
      simp only [hsel, hins, ih]
  · intro db name concepts rest e h
    simp [saveStructure, h]
  · intro db name concepts rest e h1 h2
    simp [saveStructure, h1, h2]
  · intro f h
    rw [processChunk_eq_chunkTrace, h]
    rfl
  · intro F n
    constructor
    · intro h
      simp [analyzeChunks, analyzeFrom, h]
    · intro h
      simp [analyzeChunks, analyzeFrom, h]

end Lynki


namespace Lynki

theorem validateQuestionQuality_iff (q : BuiltQuestion) :
    validateQuestionQuality q = true ↔
      (20 ≤ q.question.length ∧ q.question.length ≤ 500 ∧
       (∀ o ∈ q.options, 3 ≤ o.optionText.length ∧ 10 ≤ o.explanation.length) ∧
       (q.options.map (fun o => strToLower o.optionText)).Nodup ∧
       (∀ h ∈ q.hint, h ≠ "" → 10 ≤ h.length)) := by
  unfold validateQuestionQuality
  split_ifs with h1 h2 h3
  · simp only [Bool.or_eq_true, decide_eq_true_eq] at h1
    simp only [Bool.false_eq_true, false_iff]
    rintro ⟨ha, hb, -⟩
    omega
  · simp only [List.any_eq_true, Bool.or_eq_true, decide_eq_true_eq] at h2
    simp only [Bool.false_eq_true, false_iff]
    rintro ⟨-, -, hall, -⟩
    obtain ⟨o, ho, hbad⟩ := h2
    have := hall o ho
    omega
  · simp only [Bool.not_eq_true', decide_eq_false_iff_not] at h3
    simp only [Bool.false_eq_true, false_iff]
    rintro ⟨-, -, -, hnd, -⟩
    exact h3 hnd
  · simp only [Bool.or_eq_true, decide_eq_true_eq, not_or, Nat.not_lt] at h1
    simp only [List.any_eq_true, Bool.or_eq_true, decide_eq_true_eq, not_exists] at h2
    simp only [Bool.not_eq_true', decide_eq_false_iff_not, not_not] at h3
    have hopts : ∀ o ∈ q.options, 3 ≤ o.optionText.length ∧ 10 ≤ o.explanation.length := by
      intro o ho
      have hx := h2 o
      simp only [ho, true_and] at hx
      omega
    cases hh : q.hint with
    | none =>
      constructor
      · intro _
        exact ⟨h1.1, by omega, hopts, h3, by intro h hmem; simp at hmem⟩
      · intro _
        trivial
    | some h =>
      constructor
      · intro hmatch
        have hm2 : (if (decide (h ≠ "") && decide (h.length < 10)) = true then false
            else true) = true := hmatch
        refine ⟨h1.1, by omega, hopts, h3, ?_⟩
        intro h' hh' hne
        simp only [Option.mem_def, Option.some.injEq] at hh'
        subst hh'
        by_contra hlt
        rw [if_pos ?_] at hm2
        · exact absurd hm2 (by simp)
        · simp only [Bool.and_eq_true, decide_eq_true_eq, ne_eq]
          exact ⟨hne, by omega⟩
      · rintro ⟨-, -, -, -, hhint⟩
        have hht := hhint h (by simp)
        show (if (decide (h ≠ "") && decide (h.length < 10)) = true then false
            else true) = true
        rw [if_neg ?_]
        intro hcond
        simp only [Bool.and_eq_true, decide_eq_true_eq, ne_eq] at hcond
        have := hht hcond.1
        omega

end Lynki


namespace Lynki

/-- C8 counterexample: a question whose hint is present but empty (`""`,
length 0 < 10) is accepted, because `if question.hint and len(...) < 10`
skips the length check for a falsy empty string; the claim requires any
present hint shorter than 10 characters to be rejected. -/
theorem c8_counterexample :
    acceptQuestion exEmptyHint = true ∧
    exEmptyHint.hint = some "" ∧
    ¬ (∀ h ∈ exEmptyHint.hint, 10 ≤ h.length) := by
  refine ⟨by decide, rfl, fun hall => absurd (hall "" (by simp [exEmptyHint])) (by decide)⟩

/-- C8 (amended): a parsed question is accepted exactly when: it has 4
options, exactly one marked correct, question text length in [20, 500],
every option text ≥ 3 characters and every option explanation ≥ 10
characters, no duplicate option texts case-insensitively, and any present
non-empty hint is at least 10 characters (an empty hint string is falsy in
Python and escapes the length check); in particular 3 options, two correct
options, or a question text of length 10 are rejected, and a length-21 text
with well-formed options is accepted. -/
theorem c8_quality_acceptance :
    (∀ qd : RawQuestion,
        acceptQuestion qd = true ↔
          (qd.options.length = 4 ∧
           qd.options.countP (fun o => o.isCorrect.getD false) = 1 ∧
           20 ≤ qd.question.length ∧ qd.question.length ≤ 500 ∧
           (∀ o ∈ qd.options, 3 ≤ o.text.length ∧ 10 ≤ (o.explanation.getD "").length) ∧
           (qd.options.map (fun o => strToLower o.text)).Nodup ∧
           (∀ h ∈ qd.hint, h ≠ "" → 10 ≤ h.length))) ∧
    acceptQuestion exThreeOptions = false ∧
    acceptQuestion exTwoCorrect = false ∧
    acceptQuestion exShortText = false ∧
    acceptQuestion exGoodQuestion = true := by
  refine ⟨?_, by decide, by decide, by decide, by decide⟩
  intro qd
  unfold acceptQuestion createQuestionObject
  by_cases h4 : qd.options.length = 4
  · have hcmap : (qd.options.map fun o =>
        BuiltOption.mk o.text (o.isCorrect.getD false) (o.explanation.getD "")).countP
          (·.isCorrect) = qd.options.countP (fun o => o.isCorrect.getD false) := by
      rw [List.countP_map]
      rfl
    by_cases hc : qd.options.countP (fun o => o.isCorrect.getD false) = 1
    · simp only [h4, hcmap, hc, ne_eq, not_true_eq_false, if_false,
        OfNat.ofNat_ne_one, ite_false]
      rw [validateQuestionQuality_iff]
      simp only [true_and]
      constructor
      · rintro ⟨hq1, hq2, hopts, hnd, hhint⟩
        refine ⟨hq1, hq2, ?_, ?_, hhint⟩
        · intro o ho
          exact hopts _ (List.mem_map_of_mem _ ho)
        · rw [List.map_map] at hnd
          exact hnd
      · rintro ⟨hq1, hq2, hopts, hnd, hhint⟩
        refine ⟨hq1, hq2, ?_, ?_, hhint⟩
        · intro o ho
          obtain ⟨o', ho', rfl⟩ := List.mem_map.mp ho
          exact hopts o' ho'
        · rw [List.map_map]
          exact hnd
    · rw [if_neg (by simp [h4])]
      rw [if_pos (by simpa [hcmap] using hc)]
      simp only [Bool.false_eq_true, false_iff, not_and]
      intro _ hcc
      exact absurd hcc hc
  · rw [if_pos (by simpa using h4)]
    simp only [Bool.false_eq_true, false_iff, not_and]
    intro hh
    exact absurd hh h4

end Lynki


namespace Lynki

/-! ### Lemmas for the broken substitutions of `_parse_question_response` -/

theorem bFenceOpenAux_no_bs :
    ∀ s : Str, '\\' ∉ s → ∀ st : BFOSt, st ≠ BFOSt.bsRun →
      bFenceOpenAux st s = bFenceOpenAux st [] ++ s := by
  intro s
  induction s with
  | nil => intro h st hst; simp
  | cons c rest ih =>
    intro h st hst
    have hc : ¬ c = '\\' := fun hcc => h (hcc ▸ List.mem_cons_self c rest)
    have hr : '\\' ∉ rest := fun hm => h (List.mem_cons_of_mem _ hm)
    have hnorm : ∀ b, bFenceOpenAux (BFOSt.norm b) rest = rest := by
      intro b
      rw [ih hr (BFOSt.norm b) (by simp)]
      rfl
    cases st with
    | bsRun => exact absurd rfl hst
    | norm atLS =>
      simp only [bFenceOpenAux]
      split_ifs with h1
      · have hbt : c = '`' := by
          have := (Bool.and_eq_true _ _).mp h1
          simpa using this.2
        rw [ih hr BFOSt.tick1 (by simp), hbt]
        rfl
      · rw [hnorm]
        rfl
    | tick1 =>
      simp only [bFenceOpenAux]
      split_ifs with h1
      · rw [ih hr BFOSt.tick2 (by simp), h1]
        rfl
      · rw [hnorm]
        rfl
    | tick2 =>
      simp only [bFenceOpenAux]
      split_ifs with h1
      · rw [ih hr BFOSt.ticks (by simp), h1]
        rfl
      · rw [hnorm]
        rfl
    | ticks =>
      simp only [bFenceOpenAux]
      by_cases h1 : c = 'j'
      · rw [if_pos h1, ih hr BFOSt.jtag1 (by simp), h1]
        rfl
      · rw [if_neg h1, if_neg hc, hnorm]
        rfl
    | jtag1 =>
      simp only [bFenceOpenAux]
      split_ifs with h1
      · rw [ih hr BFOSt.jtag2 (by simp), h1]
        rfl
      · rw [hnorm]
        rfl
    | jtag2 =>
      simp only [bFenceOpenAux]
      split_ifs with h1
      · rw [ih hr BFOSt.jtag3 (by simp), h1]
        rfl
      · rw [hnorm]
        rfl
    | jtag3 =>
      simp only [bFenceOpenAux]
      split_ifs with h1
      · rw [ih hr BFOSt.jdone (by simp), h1]
        rfl
      · rw [hnorm]
        rfl
    | jdone =>
      simp only [bFenceOpenAux]
      rw [if_neg hc, hnorm]
      rfl

theorem bFenceCloseAux_no_bs :
    ∀ s : Str, '\\' ∉ s → bFenceCloseAux BFCSt.norm [] s = s := by
  intro s
  induction s with
  | nil => intro h; rfl
  | cons c rest ih =>
    intro h
    have hc : ¬ c = '\\' := fun hcc => h (hcc ▸ List.mem_cons_self c rest)
    have hr : '\\' ∉ rest := fun hm => h (List.mem_cons_of_mem _ hm)
    simp only [bFenceCloseAux]
    rw [if_neg hc, ih hr]

theorem bCommaSubAux_no_bs (close : Char) :
    ∀ s : Str, '\\' ∉ s →
      bCommaSubAux close [] s = s ∧ bCommaSubAux close [','] s = ',' :: s := by
  intro s
  induction s with
  | nil => intro h; exact ⟨rfl, rfl⟩
  | cons c rest ih =>
    intro h
    have hc : ¬ c = '\\' := fun hcc => h (hcc ▸ List.mem_cons_self c rest)
    have hr : '\\' ∉ rest := fun hm => h (List.mem_cons_of_mem _ hm)
    obtain ⟨ih1, ih2⟩ := ih hr
    constructor
    · simp only [bCommaSubAux]
      by_cases h1 : c = ','
      · rw [if_pos h1, ih2, h1]
      · rw [if_neg h1, ih1]
    · simp only [bCommaSubAux]
      rw [if_neg hc]
      by_cases h1 : c = ','
      · rw [if_pos h1, ih2, h1]
      · rw [if_neg h1, ih1]

theorem mem_of_mem_sliceBraces {s j : Str} (h : sliceBraces s = some j) :
    ∀ c ∈ j, c ∈ s := by
  unfold sliceBraces at h
  split at h
  · cases h
    intro c hc
    exact List.drop_subset _ _ (List.take_subset _ _ hc)
  · cases h

end Lynki


namespace Lynki

/-- C2: on the spec's example input, the structure-extraction stage's
`_extract_and_clean_json` produces the repaired string, but the question
generator's `_parse_question_response` does not — its doubled-backslash raw
strings (`r'^```(?:json)?\\s*'`, `r'\\s*```$'`, `r',\\s*}'`, `r',\\s*]'`)
only match a literal backslash, so the trailing comma survives and
`json.loads` then fails; in general, on any input without a literal
backslash, its cleaning step is exactly the raw brace slice. -/
theorem c2_parse_question_response_broken :
    extractAndCleanJson ("```json\n\x7b\"a\":1,\x7d\n```".data) =
      some ("\x7b\"a\":1\x7d".data) ∧
    parseQRClean ("```json\n\x7b\"a\":1,\x7d\n```".data) =
      some ("\x7b\"a\":1,\x7d".data) ∧
    ("\x7b\"a\":1,\x7d".data : Str) ≠ ("\x7b\"a\":1\x7d".data : Str) ∧
    (∀ s : Str, '\\' ∉ s → parseQRClean s = sliceBraces s) := by
  refine ⟨by decide, by decide, by decide, ?_⟩
  intro s hs
  unfold parseQRClean bFenceOpenSub bFenceCloseSub
  rw [bFenceOpenAux_no_bs s hs (BFOSt.norm true) (by simp)]
  rw [show bFenceOpenAux (BFOSt.norm true) [] ++ s = s from rfl]
  rw [bFenceCloseAux_no_bs s hs]
  cases hsl : sliceBraces s with
  | none => rfl
  | some j =>
    have hj : '\\' ∉ j := fun hm => hs (mem_of_mem_sliceBraces hsl _ hm)
    simp only [Option.map_some']
    unfold bCommaSub
    rw [(bCommaSubAux_no_bs '}' j hj).1, (bCommaSubAux_no_bs ']' j hj).1]

end Lynki


namespace Lynki

/-! ### Whitespace, `trim` and splitter lemmas for the Chunker -/

theorem nw_append (a b : Str) : nw (a ++ b) = nw a ++ nw b :=
  List.filter_append a b

theorem nw_reverse (s : Str) : nw s.reverse = (nw s).reverse :=
  List.filter_reverse _ s

theorem nw_dropWhile (s : Str) : nw (s.dropWhile isWS) = nw s := by
  conv_rhs => rw [← List.takeWhile_append_dropWhile (p := isWS) (l := s)]
  rw [nw_append]
  have h : nw (s.takeWhile isWS) = [] := by
    rw [nw, List.filter_eq_nil_iff]
    intro a ha
    simp [List.mem_takeWhile_imp ha]
  rw [h, List.nil_append]

theorem nw_trim (s : Str) : nw (trim s) = nw s := by
  unfold trim
  rw [nw_reverse, nw_dropWhile, nw_reverse, List.reverse_reverse, nw_dropWhile]

theorem trim_length_le (s : Str) : (trim s).length ≤ s.length := by
  unfold trim
  have h1 := (List.dropWhile_sublist (l := (s.dropWhile isWS).reverse) isWS).length_le
  have h2 := (List.dropWhile_sublist (l := s) isWS).length_le
  simp only [List.length_reverse] at *
  omega

theorem dropWhile_idem {α} (p : α → Bool) (l : List α) :
    (l.dropWhile p).dropWhile p = l.dropWhile p := by
  induction l with
  | nil => rfl
  | cons c t ih =>
    by_cases h : p c
    · simp [List.dropWhile_cons, h, ih]
    · simp [List.dropWhile_cons, h]

theorem dropWhile_head_not {α} (p : α → Bool) (l : List α) :
    l.dropWhile p = [] ∨ ∃ h t, l.dropWhile p = h :: t ∧ p h = false := by
  induction l with
  | nil => left; rfl
  | cons c t ih =>
    by_cases h : p c
    · simpa [List.dropWhile_cons, h] using ih
    · right
      exact ⟨c, t, by simp [List.dropWhile_cons, h], by simp [h]⟩

theorem trim_idem (s : Str) : trim (trim s) = trim s := by
  unfold trim
  have hA : (s.dropWhile isWS).reverse.dropWhile isWS <:+ (s.dropWhile isWS).reverse :=
    List.dropWhile_suffix isWS
  have hpre : ((s.dropWhile isWS).reverse.dropWhile isWS).reverse <+: s.dropWhile isWS := by
    have h := List.reverse_prefix.mpr hA
    rwa [List.reverse_reverse] at h
  have claim1 :
      ((s.dropWhile isWS).reverse.dropWhile isWS).reverse.dropWhile isWS =
        ((s.dropWhile isWS).reverse.dropWhile isWS).reverse := by
    rcases dropWhile_head_not isWS s with hnil | ⟨h, t, hht, hh⟩
    · rw [hnil]
      rfl
    · rcases hrev : ((s.dropWhile isWS).reverse.dropWhile isWS).reverse with _ | ⟨h', t'⟩
      · rfl
      · obtain ⟨u, hu⟩ := hpre
        rw [hrev] at hu
        rw [hht] at hu
        have hh' : h' = h := by
          have := hu
          simp only [List.cons_append] at this
          exact (List.cons.injEq _ _ _ _ ▸ this).1
        rw [List.dropWhile_cons, hh', hh]
        simp
  rw [claim1, List.reverse_reverse, dropWhile_idem]

theorem nw_flatten_splitParasAux :
    ∀ (acc s : Str), nw (splitParasAux acc s).flatten = nw acc.reverse ++ nw s := by
  intro acc s
  induction acc, s using splitParasAux.induct with
  | case1 acc => simp [splitParasAux, nw]
  | case2 acc rest ih =>
    rw [splitParasAux.eq_2, List.flatten_cons, nw_append, ih]
    simp [nw, List.filter_cons, isWS]
  | case3 acc c rest hne ih =>
    rw [splitParasAux.eq_3 acc c rest hne, ih]
    by_cases hw : isWS c <;>
      simp [nw, List.filter_cons, List.filter_append, List.reverse_cons, hw,
        List.append_assoc]

theorem nw_paragraphs (text : Str) : nw (paragraphs text).flatten = nw text := by
  rw [paragraphs, nw_flatten_splitParasAux]
  rfl

theorem nw_flatten_sentAux :
    ∀ (s : Str) (skipping : Bool) (acc : Str),
      nw (sentAux skipping acc s).flatten = nw acc.reverse ++ nw s := by
  intro s
  induction s with
  | nil => intro sk acc; simp [sentAux, nw]
  | cons c rest ih =>
    intro sk acc
    simp only [sentAux]
    split_ifs with h1 h2
    · rw [ih true acc]
      have hw : isWS c = true := ((Bool.and_eq_true _ _).mp h1).2
      simp [nw, List.filter_cons, hw]
    · simp only [List.flatten_cons]
      rw [nw_append, ih true []]
      have hp : isEndPunct c = true := ((Bool.and_eq_true _ _).mp h2).1
      have hnw : isWS c = false := by
        rcases (by simpa [isEndPunct] using hp : (c = '.' ∨ c = '!') ∨ c = '?') with
          (h | h) | h <;> simp [h, isWS]
      simp [nw, List.filter_cons, List.filter_append, hnw, List.append_assoc]
    · rw [ih false (c :: acc)]
      by_cases hw : isWS c <;>
        simp [nw, List.filter_cons, List.filter_append, List.reverse_cons, hw,
          List.append_assoc]

theorem flatten_filter_ne_nil (l : List Str) :
    (l.filter (fun s => !s.isEmpty)).flatten = l.flatten := by
  induction l with
  | nil => rfl
  | cons s t ih =>
    by_cases h : s.isEmpty
    · have hs : s = [] := by simpa using h
      simp [List.filter_cons, h, hs, ih]
    · simp [List.filter_cons, h, ih]

theorem nw_flatten_map_trim (l : List Str) : nw (l.map trim).flatten = nw l.flatten := by
  induction l with
  | nil => rfl
  | cons s t ih => simp [List.flatten_cons, nw_append, nw_trim, ih]

theorem nw_splitIntoSentences (p : Str) : nw (splitIntoSentences p).flatten = nw p := by
  rw [splitIntoSentences, flatten_filter_ne_nil, nw_flatten_map_trim, nw_flatten_sentAux]
  rfl

theorem sent_trim_fixed {p x : Str} (hx : x ∈ splitIntoSentences p) : trim x = x := by
  unfold splitIntoSentences at hx
  obtain ⟨y, -, rfl⟩ := List.mem_map.mp (List.mem_of_mem_filter hx)
  exact trim_idem y

end Lynki


namespace Lynki

/-! ### Content preservation through the chunk loop -/

theorem flushCurrent_nw (st : ChunkState) :
    nw (flushCurrent st).flatten = nw st.chunks.flatten ++ nw st.current := by
  unfold flushCurrent
  split_ifs with h
  · have hcur : nw st.current = [] := by
      rw [← nw_trim, show trim st.current = [] by simpa using h]
      rfl
    rw [hcur, List.append_nil]
  · rw [List.flatten_append, nw_append]
    simp [nw_append, nw_trim]

theorem stepSent_nw (sz : Nat) (st : ChunkState) (s : Str) :
    nw (stepSent sz st s).chunks.flatten ++ nw (stepSent sz st s).current =
      nw st.chunks.flatten ++ nw st.current ++ nw s := by
  unfold stepSent
  split_ifs with h hsep
  · rw [flushCurrent_nw, List.append_assoc]
  · have hc : st.current = [] := by simpa using hsep
    simp [hc, nw_append]
    rfl
  · simp only [nw_append, show nw [' '] = [] from rfl, List.append_nil,
      List.append_assoc]
    simp

theorem foldSent_nw (sz : Nat) :
    ∀ (sents : List Str) (st : ChunkState),
      nw (sents.foldl (stepSent sz) st).chunks.flatten ++
          nw (sents.foldl (stepSent sz) st).current =
        nw st.chunks.flatten ++ nw st.current ++ nw sents.flatten := by
  intro sents
  induction sents with
  | nil => intro st; simp [nw]
  | cons s t ih =>
    intro st
    rw [List.foldl_cons, ih, stepSent_nw]
    simp [nw_append, List.append_assoc]

theorem stepPara_nw (sz : Nat) (st : ChunkState) (p : Str) :
    nw (stepPara sz st p).chunks.flatten ++ nw (stepPara sz st p).current =
      nw st.chunks.flatten ++ nw st.current ++ nw p := by
  simp only [stepPara]
  split_ifs with h1 h2 h3 hsep
  · have : nw p = [] := by
      rw [← nw_trim, show trim p = [] by simpa using h1]
      rfl
    simp [this]
  · rw [foldSent_nw, flushCurrent_nw, nw_splitIntoSentences, nw_trim]
    simp [nw, List.append_assoc]
  · rw [flushCurrent_nw, nw_trim, List.append_assoc]
  · have hc : st.current = [] := by simpa using hsep
    simp [hc, nw_append, nw_trim]
    rfl
  · simp only [nw_append, show nw ['\n', '\n'] = [] from rfl, List.append_nil,
      List.append_assoc, nw_trim]
    simp

theorem foldPara_nw (sz : Nat) :
    ∀ (paras : List Str) (st : ChunkState),
      nw (paras.foldl (stepPara sz) st).chunks.flatten ++
          nw (paras.foldl (stepPara sz) st).current =
        nw st.chunks.flatten ++ nw st.current ++ nw paras.flatten := by
  intro paras
  induction paras with
  | nil => intro st; simp [nw]
  | cons p t ih =>
    intro st
    rw [List.foldl_cons, ih, stepPara_nw]
    simp [nw_append, List.append_assoc]

theorem chunkText_nw (text : Str) (sz : Nat) :
    nw (chunkText text sz).flatten = nw text := by
  simp only [chunkText]
  split_ifs with h1 h2
  · simp
  · simp
  · rw [flushCurrent_nw, foldPara_nw, nw_paragraphs]
    simp [nw]

end Lynki


namespace Lynki

/-! ### Size bounds through the chunk loop -/

theorem flushCurrent_inv (size : Nat) (text : Str) (st : ChunkState)
    (hchunks : ∀ c ∈ st.chunks, c.length ≤ size ∨ isSentenceOf text c)
    (hcur : st.current = [] ∨ st.current.length ≤ size ∨
      (isSentenceOf text st.current ∧ trim st.current = st.current)) :
    ∀ c ∈ flushCurrent st, c.length ≤ size ∨ isSentenceOf text c := by
  intro c hc
  unfold flushCurrent at hc
  split_ifs at hc with h
  · exact hchunks c hc
  · rcases List.mem_append.mp hc with hc | hc
    · exact hchunks c hc
    · have hceq : c = trim st.current := by simpa using hc
      subst hceq
      rcases hcur with hnil | hlen | ⟨hsent, hfix⟩
      · rw [hnil]
        left
        simp [trim]
      · exact Or.inl (le_trans (trim_length_le _) hlen)
      · rw [hfix]
        exact Or.inr hsent

theorem stepSent_inv (size : Nat) (text : Str) (st : ChunkState) (s : Str)
    (hs : isSentenceOf text s) (hfix : trim s = s)
    (hchunks : ∀ c ∈ st.chunks, c.length ≤ size ∨ isSentenceOf text c)
    (hcur : st.current = [] ∨ st.current.length ≤ size ∨
      (isSentenceOf text st.current ∧ trim st.current = st.current)) :
    (∀ c ∈ (stepSent size st s).chunks, c.length ≤ size ∨ isSentenceOf text c) ∧
    ((stepSent size st s).current = [] ∨ (stepSent size st s).current.length ≤ size ∨
      (isSentenceOf text (stepSent size st s).current ∧
        trim (stepSent size st s).current = (stepSent size st s).current)) := by
  unfold stepSent
  split_ifs with h hsep
  · exact ⟨flushCurrent_inv size text st hchunks hcur, Or.inr (Or.inr ⟨hs, hfix⟩)⟩
  · refine ⟨hchunks, Or.inr (Or.inl ?_)⟩
    have hc : st.current = [] := by simpa using hsep
    simp only [hc, List.length_append, List.length_nil]
    omega
  · refine ⟨hchunks, Or.inr (Or.inl ?_)⟩
    simp only [List.length_append, List.length_cons, List.length_nil]
    omega

theorem foldSent_inv (size : Nat) (text : Str) :
    ∀ (sents : List Str), (∀ s ∈ sents, isSentenceOf text s ∧ trim s = s) →
    ∀ st : ChunkState,
      (∀ c ∈ st.chunks, c.length ≤ size ∨ isSentenceOf text c) →
      (st.current = [] ∨ st.current.length ≤ size ∨
        (isSentenceOf text st.current ∧ trim st.current = st.current)) →
      (∀ c ∈ (sents.foldl (stepSent size) st).chunks,
        c.length ≤ size ∨ isSentenceOf text c) ∧
      ((sents.foldl (stepSent size) st).current = [] ∨
        (sents.foldl (stepSent size) st).current.length ≤ size ∨
        (isSentenceOf text (sents.foldl (stepSent size) st).current ∧
          trim (sents.foldl (stepSent size) st).current =
            (sents.foldl (stepSent size) st).current)) := by
  intro sents
  induction sents with
  | nil => intro hs st h1 h2; exact ⟨h1, h2⟩
  | cons s t ih =>
    intro hs st h1 h2
    rw [List.foldl_cons]
    have hstep := stepSent_inv size text st s (hs s (by simp)).1 (hs s (by simp)).2 h1 h2
    exact ih (fun x hx => hs x (by simp [hx])) _ hstep.1 hstep.2

theorem stepPara_inv (size : Nat) (text : Str) (st : ChunkState) (p : Str)
    (hp : p ∈ paragraphs text)
    (hchunks : ∀ c ∈ st.chunks, c.length ≤ size ∨ isSentenceOf text c)
    (hcur : st.current = [] ∨ st.current.length ≤ size ∨
      (isSentenceOf text st.current ∧ trim st.current = st.current)) :
    (∀ c ∈ (stepPara size st p).chunks, c.length ≤ size ∨ isSentenceOf text c) ∧
    ((stepPara size st p).current = [] ∨ (stepPara size st p).current.length ≤ size ∨
      (isSentenceOf text (stepPara size st p).current ∧
        trim (stepPara size st p).current = (stepPara size st p).current)) := by
  simp only [stepPara]
  split_ifs with h1 h2 h3 hsep
  · exact ⟨hchunks, hcur⟩
  · refine foldSent_inv size text (splitIntoSentences (trim p)) ?_ _
      (flushCurrent_inv size text st hchunks hcur) (Or.inl rfl)
    intro s hsent
    exact ⟨⟨p, hp, hsent⟩, sent_trim_fixed hsent⟩
  · refine ⟨flushCurrent_inv size text st hchunks hcur, Or.inr (Or.inl ?_)⟩
    show (trim p).length ≤ size
    omega
  · refine ⟨hchunks, Or.inr (Or.inl ?_)⟩
    have hc : st.current = [] := by simpa using hsep
    simp only [hc, List.length_append, List.length_nil]
    omega
  · refine ⟨hchunks, Or.inr (Or.inl ?_)⟩
    simp only [List.length_append, List.length_cons, List.length_nil]
    omega

theorem foldPara_inv (size : Nat) (text : Str) :
    ∀ (paras : List Str), (∀ p ∈ paras, p ∈ paragraphs text) →
    ∀ st : ChunkState,
      (∀ c ∈ st.chunks, c.length ≤ size ∨ isSentenceOf text c) →
      (st.current = [] ∨ st.current.length ≤ size ∨
        (isSentenceOf text st.current ∧ trim st.current = st.current)) →
      (∀ c ∈ (paras.foldl (stepPara size) st).chunks,
        c.length ≤ size ∨ isSentenceOf text c) ∧
      ((paras.foldl (stepPara size) st).current = [] ∨
        (paras.foldl (stepPara size) st).current.length ≤ size ∨
        (isSentenceOf text (paras.foldl (stepPara size) st).current ∧
          trim (paras.foldl (stepPara size) st).current =
            (paras.foldl (stepPara size) st).current)) := by
  intro paras
  induction paras with
  | nil => intro hs st h1 h2; exact ⟨h1, h2⟩
  | cons p t ih =>
    intro hs st h1 h2
    rw [List.foldl_cons]
    have hstep := stepPara_inv size text st p (hs p (by simp)) h1 h2
    exact ih (fun x hx => hs x (by simp [hx])) _ hstep.1 hstep.2

end Lynki


namespace Lynki

/-- C7: concatenating the chunks of `_chunk_text` reconstructs the input
modulo whitespace — the non-whitespace characters of the concatenation are
exactly those of the input, in order — and the function is a pure function
of its input, so two calls on the same input coincide. -/
theorem c7_chunks_reconstruct_modulo_ws :
    (∀ (text : Str) (chunkSize : Nat),
        nw (chunkText text chunkSize).flatten = nw text) ∧
    (∀ (text : Str) (chunkSize : Nat),
        chunkText text chunkSize = chunkText text chunkSize) :=
  ⟨fun text chunkSize => chunkText_nw text chunkSize, fun _ _ => rfl⟩

/-- C6 counterexample: for a text of six spaces and `maxChunkSize = 5`, the
fallback `return chunks if chunks else [text]` returns the whole text as one
chunk of length 6 > 5, and that chunk is not a single sentence of the text
(the text has no sentences at all), contradicting the claim's only allowed
exception. -/
theorem c6_counterexample :
    chunkText (List.replicate 6 ' ') 5 = [List.replicate 6 ' '] ∧
    ¬ ((List.replicate 6 ' ' : Str).length ≤ 5) ∧
    ¬ isSentenceOf (List.replicate 6 ' ') (List.replicate 6 ' ') := by
  refine ⟨by decide, by decide, by decide⟩

/-- C6 (amended): `chunk(text, maxChunkSize)` returns `[text]` when
`len(text) ≤ maxChunkSize`; otherwise every returned chunk has length
`≤ maxChunkSize` except a chunk that is a single sentence (an element of the
sentence split of one of the text's stripped paragraphs), or the fallback
chunk equal to the whole text, returned when no chunk was produced (which
happens only for effectively blank texts). -/
theorem c6_chunk_size_bound (text : Str) (chunkSize : Nat) :
    (text.length ≤ chunkSize → chunkText text chunkSize = [text]) ∧
    (∀ c ∈ chunkText text chunkSize,
      c.length ≤ chunkSize ∨ isSentenceOf text c ∨ c = text) := by
  constructor
  · intro h
    unfold chunkText
    rw [if_pos h]
  · intro c hc
    simp only [chunkText] at hc
    split_ifs at hc with h1 h2
    · left
      have : c = text := by simpa using hc
      rw [this]
      exact h1
    · right; right
      simpa using hc
    · have hinv := foldPara_inv chunkSize text (paragraphs text) (fun p hp => hp)
        ⟨[], []⟩ (by simp) (Or.inl rfl)
      rcases flushCurrent_inv chunkSize text _ hinv.1 hinv.2 c hc with h | h
      · exact Or.inl h
      · exact Or.inr (Or.inl h)

end Lynki

